import Mathlib

/-!
Verification of the EMKF (Expectation-Maximization Kalman Filter) engine of
`src/emkf.py` (`class ExpectationMaximizationKalmanFilter`).

The Python class is embedded shallowly:

* arrays of rationals stand in for the numpy float arrays
  (so "within floating tolerance" statements become exact statements);
* the mutable trajectory buffers (`x_pred`, `V_pred`, `x_filt`, `V_filt`,
  `x_smooth`, `V_smooth`, `V_pair`, `Fs`), all allocated with `xp.zeros` and
  filled in place, are total functions `ℕ → _` initialised to `0` and updated
  pointwise;
* the model parameters taken time-invariant (`_last_dims` applied to a 2-d
  matrix or a 1-d vector returns it unchanged, which is the configuration the
  constructor builds for constant inputs); the mutable parameters `self.F` and
  `self.b` live in the state record, the immutable ones in the parameter
  record;
* `xp.linalg.pinv` is the backend's pseudo-inverse capability: it is carried
  as a function parameter (one per square size used), exactly as the source
  delegates it to the numpy/cupy backend.  It is total: it never raises;
* Python exceptions (`UnboundLocalError`, `NameError`, `IndexError`,
  `TypeError`, `AttributeError`, `ZeroDivisionError`, `ValueError`) become
  values of `PyErr` and fallible code returns `Except PyErr _`.
-/

set_option maxRecDepth 100000

namespace EMKF

/-- State / observation vectors: 1-d numpy arrays of rationals. -/
abbrev Vec (n : ℕ) := Fin n → ℚ

/-- Two-dimensional numpy arrays of rationals. -/
abbrev Mat (n m : ℕ) := Matrix (Fin n) (Fin m) ℚ

/-- Python exceptions that the embedded code can raise. -/
inductive PyErr where
  /-- `return F_est` with `F_est` never assigned
      (`_update_transition_matrix` when `"F" not in self.em_vars`). -/
  | unboundLocalFEst
  /-- the loop variable `t` read before any inner loop ever ran
      (`forward`, smooth mode, `T == 1`). -/
  | nameErrorT
  | valueError
  | indexError
  | typeError
  /-- `self.smooth()` called on a class that defines no method `smooth`. -/
  | attributeError
  | zeroDivisionError
  deriving DecidableEq, Repr

/-- The `mode` argument of the constructor. -/
inductive Mode where
  | smooth
  | filter
  deriving DecidableEq, Repr

/-- numpy `minimum(maximum(lo, x), hi)` on one entry. -/
def clipQ (x lo hi : ℚ) : ℚ := min (max lo x) hi

/-- The damped-clip update on a matrix:
`new = old - rate * minimum(maximum(-cutoff, old - est), cutoff)`, elementwise
(lines 268-269 and 426-427 of `emkf.py`). -/
def dampedStepM {n : ℕ} (old est : Mat n n) (rate cutoff : ℚ) : Mat n n :=
  Matrix.of fun i j => old i j - rate * clipQ (old i j - est i j) (-cutoff) cutoff

/-- The damped-clip update on a vector (lines 405-406 of `emkf.py`). -/
def dampedStepV {n : ℕ} (old est : Vec n) (rate cutoff : ℚ) : Vec n :=
  fun i => old i - rate * clipQ (old i - est i) (-cutoff) cutoff

/-- numpy `xp.outer x y`. -/
def outerQ {n : ℕ} (x y : Vec n) : Mat n n :=
  Matrix.of fun i j => x i * y j

/-- In-place write `a[t] = v` on a preallocated buffer. -/
def wr {α : Type} (a : ℕ → α) (t : ℕ) (v : α) : ℕ → α :=
  fun s => if s = t then v else a s

/-- The immutable configuration of one estimator instance: constructor
arguments that `forward` never mutates, plus the backend pseudo-inverse. -/
structure KParams (n m : ℕ) where
  /-- `len(self.y)`. -/
  T : ℕ
  /-- the observation sequence `self.y` (entries beyond `T` irrelevant). -/
  y : ℕ → Vec m
  /-- `self.initial_mean`. -/
  initial_mean : Vec n
  /-- `self.initial_covariance`. -/
  initial_covariance : Mat n n
  /-- the initial `self.F` set by the constructor. -/
  F0 : Mat n n
  /-- `self.Q`. -/
  Q : Mat n n
  /-- `self.H`. -/
  H : Mat m n
  /-- `self.R`. -/
  R : Mat m m
  /-- the initial `self.b` set by the constructor. -/
  b0 : Vec n
  /-- `self.d`. -/
  d : Vec m
  /-- `self.tau` (`update_interval`). -/
  tau : ℕ
  /-- `self.eta`. -/
  eta : ℚ
  /-- `self.cutoff`. -/
  cutoff : ℚ
  /-- `self.etab`. -/
  etab : ℚ
  /-- `self.cutoffb`. -/
  cutoffb : ℚ
  /-- `self.iteration`. -/
  iteration : ℕ
  /-- `self.store_transition_matrices_on`. -/
  store : Bool
  /-- `"F" in self.em_vars`. -/
  emF : Bool
  /-- `"b" in self.em_vars`. -/
  emB : Bool
  /-- `self.mode`. -/
  mode : Mode
  /-- the backend `xp.linalg.pinv` on `n × n` matrices. -/
  pinvN : Mat n n → Mat n n
  /-- the backend `xp.linalg.pinv` on `m × m` matrices. -/
  pinvM : Mat m m → Mat m m

/-- The mutable attributes of the estimator during `forward`. -/
structure KState (n m : ℕ) where
  /-- current `self.F`. -/
  F : Mat n n
  /-- current `self.b`. -/
  b : Vec n
  x_pred : ℕ → Vec n
  V_pred : ℕ → Mat n n
  x_filt : ℕ → Vec n
  V_filt : ℕ → Mat n n
  x_smooth : ℕ → Vec n
  V_smooth : ℕ → Mat n n
  V_pair : ℕ → Mat n n
  /-- the history buffer `self.Fs` (all-zero when storing is off). -/
  Fs : ℕ → Mat n n

variable {n m : ℕ}

/-- Method `_predict_update(t, F)` (lines 287-301): `x_pred[t] = F @ x_filt[t-1] + b`,
`V_pred[t] = F @ V_filt[t-1] @ F.T + Q`; `F = None` means the current `self.F`.
`b` is the current (possibly already updated) `self.b`. -/
def predictUpdate (p : KParams n m) (st : KState n m) (t : ℕ)
    (Fo : Option (Mat n n)) : KState n m :=
  let F := Fo.getD st.F
  { st with
    x_pred := wr st.x_pred t (F.mulVec (st.x_filt (t - 1)) + st.b)
    V_pred := wr st.V_pred t (F * st.V_filt (t - 1) * F.transpose + p.Q) }

/-- Method `_filter_update(t)` (lines 322-344):
`K = V_pred[t] @ (H.T @ pinv(H @ (V_pred[t] @ H.T) + R))`,
`x_filt[t] = x_pred[t] + K @ (y[t] - (H @ x_pred[t] + d))`,
`V_filt[t] = V_pred[t] - K @ (H @ V_pred[t])`. -/
def filterUpdate (p : KParams n m) (st : KState n m) (t : ℕ) : KState n m :=
  let K := st.V_pred t *
    (p.H.transpose * p.pinvM (p.H * (st.V_pred t * p.H.transpose) + p.R))
  { st with
    x_filt := wr st.x_filt t
      (st.x_pred t + K.mulVec (p.y t - (p.H.mulVec (st.x_pred t) + p.d)))
    V_filt := wr st.V_filt t (st.V_pred t - K * (p.H * st.V_pred t)) }

/-- Method `_predict_update_pair(t, F)` (lines 304-319): like `_predict_update` but
also records `V_pair[t] = V_filt[t-1] @ F.T`.  Dead code: no method of the
class ever calls it. -/
def predictUpdatePair (p : KParams n m) (st : KState n m) (t : ℕ)
    (Fo : Option (Mat n n)) : KState n m :=
  let F := Fo.getD st.F
  { st with
    x_pred := wr st.x_pred t (F.mulVec (st.x_filt (t - 1)) + st.b)
    V_pred := wr st.V_pred t (F * st.V_filt (t - 1) * F.transpose + p.Q)
    V_pair := wr st.V_pair t (st.V_filt (t - 1) * F.transpose) }

/-- Method `_filter_update_pair(t)` (lines 347-370): like `_filter_update` but also
corrects `V_pair[t] = V_pair[t] - K @ H @ V_pair[t]`.  Dead code: no method of
the class ever calls it. -/
def filterUpdatePair (p : KParams n m) (st : KState n m) (t : ℕ) : KState n m :=
  let K := st.V_pred t *
    (p.H.transpose * p.pinvM (p.H * (st.V_pred t * p.H.transpose) + p.R))
  { st with
    x_filt := wr st.x_filt t
      (st.x_pred t + K.mulVec (p.y t - (p.H.mulVec (st.x_pred t) + p.d)))
    V_filt := wr st.V_filt t (st.V_pred t - K * (p.H * st.V_pred t))
    V_pair := wr st.V_pair t (st.V_pair t - K * p.H * st.V_pair t) }

/-- One iteration of the backward loop of `_backward` (lines 452-467) at time
`t`: `A = V_filt[t] @ F @ pinv(V_pred[t+1])`;
`x_smooth[t] = x_filt[t] + A @ (x_smooth[t+1] - x_pred[t+1])`;
`V_smooth[t] = V_filt[t] + A @ (V_smooth[t+1] - V_pred[t+1]) @ A.T`;
`V_pair[t+1] = V_smooth[t+1] @ A.T`. -/
def backwardStep (p : KParams n m) (F : Mat n n) (st : KState n m) (t : ℕ) :
    KState n m :=
  let A := st.V_filt t * F * p.pinvN (st.V_pred (t + 1))
  { st with
    x_smooth := wr st.x_smooth t
      (st.x_filt t + A.mulVec (st.x_smooth (t + 1) - st.x_pred (t + 1)))
    V_smooth := wr st.V_smooth t
      (st.V_filt t + A * (st.V_smooth (t + 1) - st.V_pred (t + 1)) * A.transpose)
    V_pair := wr st.V_pair (t + 1) (st.V_smooth (t + 1) * A.transpose) }

/-- The loop `for t in reversed(range(s - tau, s))`: after `k` iterations the times
`s-1, s-2, ..., s-k` have been processed. -/
def backwardLoop (p : KParams n m) (F : Mat n n) (st : KState n m) (s : ℕ) :
    ℕ → KState n m
  | 0 => st
  | k + 1 => backwardStep p F (backwardLoop p F st s k) (s - (k + 1))

/-- Method `_backward(s, tau, F)` (lines 432-467): the RTS smoother over the block
`[s - tau, s]`.  Initialises `x_smooth[s] = x_filt[s]`,
`V_smooth[s] = V_filt[s]`, then runs the backward loop.  In `forward` it is
always reached with an explicit `F` (the `F = None` branch of the source would
read an unbound variable). -/
def backward (p : KParams n m) (st : KState n m) (s tau : ℕ) (F : Mat n n) :
    KState n m :=
  backwardLoop p F
    { st with
      x_smooth := wr st.x_smooth s (st.x_filt s)
      V_smooth := wr st.V_smooth s (st.V_filt s) } s tau

/-- Accumulator `res1` of `_update_transition_matrix` (lines 383-390), accumulated over
`t in range(s - tau + 1, s + 1)`:
`Σ V_pair[t] + outer(x_smooth[t], x_smooth[t-1]) - outer(b, x_smooth[t-1])`. -/
def res1Sum (st : KState n m) (s tau : ℕ) : Mat n n :=
  ∑ k in Finset.range tau,
    (st.V_pair (s - tau + 1 + k)
      + outerQ (st.x_smooth (s - tau + 1 + k)) (st.x_smooth (s - tau + k))
      - outerQ st.b (st.x_smooth (s - tau + k)))

/-- Accumulator `res2` of `_update_transition_matrix` (lines 391-392):
`Σ V_smooth[t-1] + outer(x_smooth[t-1], x_smooth[t-1])` over the same range. -/
def res2Sum (st : KState n m) (s tau : ℕ) : Mat n n :=
  ∑ k in Finset.range tau,
    (st.V_smooth (s - tau + k)
      + outerQ (st.x_smooth (s - tau + k)) (st.x_smooth (s - tau + k)))

/-- Estimate `b_est` of `_update_transition_matrix` (lines 397-402), accumulated over
`t in range(s - tau + 1, s)` and scaled by `1 / (tau - 1)`; the residual uses
the current `self.F`, not the candidate. -/
def bEst (st : KState n m) (s tau : ℕ) : Vec n :=
  (1 / ((tau : ℚ) - 1)) •
    ∑ k in Finset.range (tau - 1),
      (st.x_smooth (s - tau + 1 + k) - st.F.mulVec (st.x_smooth (s - tau + k)))

/-- Method `_update_transition_matrix(s, tau, F)` (lines 374-408): runs `_backward`,
then (if `"F" in em_vars`) forms the candidate `F_est = res1 @ pinv(res2)`,
then (if `"b" in em_vars and tau > 1`) applies the damped-clip update to
`self.b`, and returns `F_est`.  When `"F" not in em_vars` the final
`return F_est` reads a never-assigned local: `UnboundLocalError`. -/
def updateTransitionMatrix (p : KParams n m) (st : KState n m) (s tau : ℕ)
    (F : Mat n n) : Except PyErr (Mat n n × KState n m) :=
  let st1 := backward p st s tau F
  let FestO : Option (Mat n n) :=
    if p.emF then some (res1Sum st1 s tau * p.pinvN (res2Sum st1 s tau))
    else none
  let st2 :=
    if p.emB ∧ 1 < tau then
      { st1 with b := dampedStepV st1.b (bEst st1 s tau) p.etab p.cutoffb }
    else st1
  match FestO with
  | some Fest => .ok (Fest, st2)
  | none => .error .unboundLocalFEst

/-- The re-seeding of the block start done on inner iterations `n != 0`
(lines 256-259): `x_pred[s] = x_smooth[s]`,
`V_pred[s] = V_smooth[s] - outer(x_smooth[s], x_smooth[s])`. -/
def resetPredAt (st : KState n m) (s : ℕ) : KState n m :=
  { st with
    x_pred := wr st.x_pred s (st.x_smooth s)
    V_pred := wr st.V_pred s
      (st.V_smooth s - outerQ (st.x_smooth s) (st.x_smooth s)) }

/-- Runs `count` consecutive predict+update steps starting at time `t0`
(`_predict_update` then `_filter_update` at `t0, t0+1, ...`), with the
optional `F` override passed through. -/
def fwdSteps (p : KParams n m) (Fo : Option (Mat n n)) :
    KState n m → ℕ → ℕ → KState n m
  | st, _, 0 => st
  | st, t0, k + 1 =>
      fwdSteps p Fo (filterUpdate p (predictUpdate p st t0 Fo) t0) (t0 + 1) k

/-- One iteration `n` of the inner refinement loop of the smooth mode
(lines 255-265), for the block starting at `s`: on non-first iterations
re-seed the prediction at `s` from the smoothed values; run predict+update
for `t in range(s+1, min(s+tau+1, T))`; call `_update_transition_matrix` with
the loop variable `t` — whose value is `min(s+tau, T-1)` whenever any inner
loop of the run has executed, and which is unbound (`NameError`) exactly when
`T == 1`. -/
def emIterStep (p : KParams n m) (s : ℕ) (Fest : Mat n n) (st : KState n m)
    (isFirst : Bool) : Except PyErr (Mat n n × KState n m) :=
  let st1 := if isFirst then st else resetPredAt st s
  let st2 := fwdSteps p (some Fest) st1 (s + 1) (min (s + p.tau + 1) p.T - (s + 1))
  if p.T = 1 then .error .nameErrorT
  else
    updateTransitionMatrix p st2 (min (s + p.tau) (p.T - 1))
      (min (s + p.tau + 1) p.T - s - 1) Fest

/-- The inner refinement loop `for n in range(self.iteration)` with `fuel`
iterations left, threading the candidate `F_est` from one iteration to the
next. -/
def emIters (p : KParams n m) (s : ℕ) :
    ℕ → Mat n n → KState n m → Bool → Except PyErr (Mat n n × KState n m)
  | 0, Fest, st, _ => .ok (Fest, st)
  | fuel + 1, Fest, st, isFirst =>
    match emIterStep p s Fest st isFirst with
    | .ok (F2, st3) => emIters p s fuel F2 st3 false
    | .error e => .error e

/-- One iteration of the smooth-mode block loop (lines 249-271) at block start
`s`: `F_est = F.copy()`; predict (if `s != 0`) and update at `s`; the inner
refinement loop; then the damped-clip update of `self.F` from the last
candidate, snapshotting into `Fs[s // tau + 1]` when storing is on. -/
def smoothBlockStep (p : KParams n m) (st : KState n m) (s : ℕ) :
    Except PyErr (KState n m) :=
  match emIters p s p.iteration st.F
      (filterUpdate p (if s ≠ 0 then predictUpdate p st s (some st.F) else st) s)
      true with
  | .error e => .error e
  | .ok (Ffin, st2) =>
    .ok { st2 with
          F := dampedStepM st2.F Ffin p.eta p.cutoff
          Fs := if p.store then
              wr st2.Fs (s / p.tau + 1) (dampedStepM st2.F Ffin p.eta p.cutoff)
            else st2.Fs }

/-- The loop `for s in range(0, T, tau)` with `k` block starts remaining, the next one
at `s`. -/
def smoothBlocks (p : KParams n m) :
    KState n m → ℕ → ℕ → Except PyErr (KState n m)
  | st, _, 0 => .ok st
  | st, s, k + 1 =>
    match smoothBlockStep p st s with
    | .error e => .error e
    | .ok st' => smoothBlocks p st' (s + p.tau) k

/-- Accumulator `res1` of `_update_transition_matrix_approximately` (lines 412-419),
accumulated over `s in range(t+1, t+tau+1)` from *filtered* statistics:
`Σ V_pair[s] + outer(x_filt[s], x_filt[s-1]) - outer(b, x_filt[s-1])`. -/
def res1FiltSum (st : KState n m) (t tau : ℕ) : Mat n n :=
  ∑ k in Finset.range tau,
    (st.V_pair (t + 1 + k)
      + outerQ (st.x_filt (t + 1 + k)) (st.x_filt (t + k))
      - outerQ st.b (st.x_filt (t + k)))

/-- Accumulator `res2` of `_update_transition_matrix_approximately` (lines 420-421):
`Σ V_filt[s-1] + outer(x_filt[s-1], x_filt[s-1])`. -/
def res2FiltSum (st : KState n m) (t tau : ℕ) : Mat n n :=
  ∑ k in Finset.range tau,
    (st.V_filt (t + k) + outerQ (st.x_filt (t + k)) (st.x_filt (t + k)))

/-- Method `_update_transition_matrix_approximately(t)` (lines 411-429): the filter
mode's M-step.  `F_est = res1 @ pinv(res2)` from filtered statistics, then the
damped-clip update of `self.F`, snapshotting into `Fs[t // tau + 1]` when
storing is on.  It consults neither `em_vars` nor `self.b`-estimation. -/
def updateTransitionMatrixApprox (p : KParams n m) (st : KState n m) (t : ℕ) :
    KState n m :=
  let Fest := res1FiltSum st t p.tau * p.pinvN (res2FiltSum st t p.tau)
  let Fnew := dampedStepM st.F Fest p.eta p.cutoff
  { st with
    F := Fnew
    Fs := if p.store then wr st.Fs (t / p.tau + 1) Fnew else st.Fs }

/-- One iteration of the filter-mode loop (lines 275-283) at time `t`: when
`(t-1) % tau == 0 and t < T - tau`, a look-ahead of `tau + 1` predict+update
steps over `range(t, t+tau+1)` followed by the approximate M-step; then the
normal predict+update at `t`. -/
def filterStepAt (p : KParams n m) (st : KState n m) (t : ℕ) : KState n m :=
  let st1 :=
    if (t - 1) % p.tau = 0 ∧ t < p.T - p.tau then
      updateTransitionMatrixApprox p (fwdSteps p none st t (p.tau + 1)) t
    else st
  filterUpdate p (predictUpdate p st1 t none) t

/-- The loop `for t in range(1, T)` with `k` steps remaining, the next at time `t`. -/
def filterSteps (p : KParams n m) : KState n m → ℕ → ℕ → KState n m
  | st, _, 0 => st
  | st, t, k + 1 => filterSteps p (filterStepAt p st t) (t + 1) k

/-- The state at entry of `forward` (lines 228-243 plus the constructor):
all trajectory buffers zero-allocated, `x_pred[0]`/`V_pred[0]` seeded from the
initial mean/covariance, `F`/`b` at their constructor values, and `Fs`
zero-allocated with `Fs[0] = F` when storing is on. -/
def initState (p : KParams n m) : KState n m :=
  { F := p.F0
    b := p.b0
    x_pred := wr (fun _ => 0) 0 p.initial_mean
    V_pred := wr (fun _ => 0) 0 p.initial_covariance
    x_filt := fun _ => 0
    V_filt := fun _ => 0
    x_smooth := fun _ => 0
    V_smooth := fun _ => 0
    V_pair := fun _ => 0
    Fs := if p.store then wr (fun _ => 0) 0 p.F0 else fun _ => 0 }

/-- Number of block starts of `range(0, T, tau)`, i.e. `⌈T / tau⌉`. -/
def numBlocks (p : KParams n m) : ℕ := (p.T + p.tau - 1) / p.tau

/-- Method `forward()` (lines 200-283).  Smooth mode: the block loop (`tau = 0` makes
`range(0, T, 0)` raise `ValueError`).  Filter mode: `_filter_update(0)` then
the streaming loop over `t in range(1, T)` (`tau = 0` hits `(t-1) % 0`:
`ZeroDivisionError`, as soon as that loop runs). -/
def forward (p : KParams n m) : Except PyErr (KState n m) :=
  match p.mode with
  | .smooth =>
    if p.tau = 0 then .error .valueError
    else smoothBlocks p (initState p) 0 (numBlocks p)
  | .filter =>
    if p.tau = 0 ∧ 2 ≤ p.T then .error .zeroDivisionError
    else .ok (filterSteps p (filterUpdate p (initState p) 0) 1 (p.T - 1))

/-- Result of a trajectory accessor: the whole `[T, n]` array when `dim` is
omitted, a single coordinate's time series `arr[:, dim]` otherwise. -/
inductive Traj (n : ℕ) where
  | full (a : ℕ → Vec n)
  | col (c : ℕ → ℚ)

/-- numpy column indexing `arr[:, int(dim)]` on a `[T, n]` array: indices in
`[0, n)` are taken as-is, indices in `[-n, 0)` wrap around to `n + dim`, all
others raise `IndexError`. -/
def npCol (arr : ℕ → Vec n) (d : ℤ) : Except PyErr (ℕ → ℚ) :=
  if h : 0 ≤ d ∧ d < (n : ℤ) then
    .ok fun t => arr t ⟨d.toNat, by omega⟩
  else if h2 : -(n : ℤ) ≤ d ∧ d < 0 then
    .ok fun t => arr t ⟨(d + n).toNat, by omega⟩
  else .error .indexError

/-- The shared tail of the three accessors, for the trajectory `arr` of a
state: `dim is None` returns the full array; `dim <= arr.shape[1]` (note:
not `<`) returns the numpy column `arr[:, int(dim)]`; otherwise the
`raise ValueError('The dim must be less than ' + arr.shape[1] + '.')` line
concatenates a `str` with an `int` while building its message, so what
actually escapes is `TypeError`. -/
def accessTail (arr : ℕ → Vec n) (dO : Option ℤ) : Except PyErr (Traj n) :=
  match dO with
  | none => .ok (.full arr)
  | some d =>
    if d ≤ (n : ℤ) then
      match npCol arr d with
      | .ok c => .ok (.col c)
      | .error e => .error e
    else .error .typeError

/-- Accessor `get_predicted_value(dim)` (lines 471-493).  `stO = none` models an
instance on which `forward` has not run (`self.x_pred[0]` raises, and the
handler calls `self.forward()`). -/
def getPredictedValue (p : KParams n m) (stO : Option (KState n m))
    (dO : Option ℤ) : Except PyErr (Traj n) :=
  match (match stO with | some st => Except.ok st | none => forward p) with
  | .error e => .error e
  | .ok st => accessTail st.x_pred dO

/-- Accessor `get_filtered_value(dim)` (lines 496-518), same lazy-run pattern on
`self.x_filt`. -/
def getFilteredValue (p : KParams n m) (stO : Option (KState n m))
    (dO : Option ℤ) : Except PyErr (Traj n) :=
  match (match stO with | some st => Except.ok st | none => forward p) with
  | .error e => .error e
  | .ok st => accessTail st.x_filt dO

/-- Accessor `get_smoothed_value(dim)` (lines 539-561).  When the trajectories are not
yet computed the handler calls `self.smooth()` — but the class defines no
method `smooth`, so the lazy branch raises `AttributeError` instead of
running anything. -/
def getSmoothedValue (p : KParams n m) (stO : Option (KState n m))
    (dO : Option ℤ) : Except PyErr (Traj n) :=
  match (match stO with
         | some st => Except.ok st
         | none => (.error .attributeError : Except PyErr (KState n m))) with
  | .error e => .error e
  | .ok st => accessTail st.x_smooth dO

/-- Accessor `get_transition_matrices(ids)` restricted to the no-`ids` call
(lines 521-536): the history buffer when storing is on, else the current
matrix. -/
def getTransitionMatrices (p : KParams n m) (st : KState n m) :
    (ℕ → Mat n n) ⊕ Mat n n :=
  if p.store then .inl st.Fs else .inr st.F

/-- The error of an accessor result, if any (used to state which exception a
call raises). -/
def errOf (r : Except PyErr (Traj n)) : Option PyErr :=
  match r with
  | .error e => some e
  | .ok _ => none

/-- Whether an accessor call returned normally. -/
def trajOk (r : Except PyErr (Traj n)) : Bool :=
  match r with
  | .error _ => false
  | .ok _ => true

/-- The exact Moore-Penrose pseudo-inverse of a `1 × 1` real matrix, which is
what `numpy.linalg.pinv` computes there: `1 / a` for `a ≠ 0`, else `0`. -/
def pinv1 : Mat 1 1 → Mat 1 1 :=
  fun A => Matrix.of fun _ _ => if A 0 0 = 0 then 0 else (A 0 0)⁻¹

/-- A concrete scalar configuration used by the closed-form checks: unit
covariances and matrices, `eta = etab = 1/2`, `cutoff = cutoffb = 1/10`. -/
def mkP (mode : Mode) (T : ℕ) (y : ℕ → ℚ) (emF emB : Bool)
    (tau iteration : ℕ) : KParams 1 1 :=
  { T := T
    y := fun t _ => y t
    initial_mean := fun _ => 0
    initial_covariance := Matrix.of fun _ _ => 1
    F0 := Matrix.of fun _ _ => 1
    Q := Matrix.of fun _ _ => 1
    H := Matrix.of fun _ _ => 1
    R := Matrix.of fun _ _ => 1
    b0 := fun _ => 0
    d := fun _ => 0
    tau := tau
    eta := 1/2
    cutoff := 1/10
    etab := 1/2
    cutoffb := 1/10
    iteration := iteration
    store := true
    emF := emF
    emB := emB
    mode := mode
    pinvN := pinv1
    pinvM := pinv1 }

/-! ## Frame lemmas: which fields each operation leaves untouched -/

theorem predictUpdate_F (p : KParams n m) (st : KState n m) (t : ℕ)
    (Fo : Option (Mat n n)) : (predictUpdate p st t Fo).F = st.F := rfl

theorem predictUpdate_b (p : KParams n m) (st : KState n m) (t : ℕ)
    (Fo : Option (Mat n n)) : (predictUpdate p st t Fo).b = st.b := rfl

theorem predictUpdate_x_filt (p : KParams n m) (st : KState n m) (t : ℕ)
    (Fo : Option (Mat n n)) : (predictUpdate p st t Fo).x_filt = st.x_filt := rfl

theorem predictUpdate_V_filt (p : KParams n m) (st : KState n m) (t : ℕ)
    (Fo : Option (Mat n n)) : (predictUpdate p st t Fo).V_filt = st.V_filt := rfl

theorem predictUpdate_x_smooth (p : KParams n m) (st : KState n m) (t : ℕ)
    (Fo : Option (Mat n n)) :
    (predictUpdate p st t Fo).x_smooth = st.x_smooth := rfl

theorem predictUpdate_V_smooth (p : KParams n m) (st : KState n m) (t : ℕ)
    (Fo : Option (Mat n n)) :
    (predictUpdate p st t Fo).V_smooth = st.V_smooth := rfl

theorem predictUpdate_V_pair (p : KParams n m) (st : KState n m) (t : ℕ)
    (Fo : Option (Mat n n)) : (predictUpdate p st t Fo).V_pair = st.V_pair := rfl

theorem predictUpdate_Fs (p : KParams n m) (st : KState n m) (t : ℕ)
    (Fo : Option (Mat n n)) : (predictUpdate p st t Fo).Fs = st.Fs := rfl

theorem filterUpdate_F (p : KParams n m) (st : KState n m) (t : ℕ) :
    (filterUpdate p st t).F = st.F := rfl

theorem filterUpdate_b (p : KParams n m) (st : KState n m) (t : ℕ) :
    (filterUpdate p st t).b = st.b := rfl

theorem filterUpdate_x_pred (p : KParams n m) (st : KState n m) (t : ℕ) :
    (filterUpdate p st t).x_pred = st.x_pred := rfl

theorem filterUpdate_V_pred (p : KParams n m) (st : KState n m) (t : ℕ) :
    (filterUpdate p st t).V_pred = st.V_pred := rfl

theorem filterUpdate_x_smooth (p : KParams n m) (st : KState n m) (t : ℕ) :
    (filterUpdate p st t).x_smooth = st.x_smooth := rfl

theorem filterUpdate_V_smooth (p : KParams n m) (st : KState n m) (t : ℕ) :
    (filterUpdate p st t).V_smooth = st.V_smooth := rfl

theorem filterUpdate_V_pair (p : KParams n m) (st : KState n m) (t : ℕ) :
    (filterUpdate p st t).V_pair = st.V_pair := rfl

theorem filterUpdate_Fs (p : KParams n m) (st : KState n m) (t : ℕ) :
    (filterUpdate p st t).Fs = st.Fs := rfl

theorem backwardStep_F (p : KParams n m) (F : Mat n n) (st : KState n m)
    (t : ℕ) : (backwardStep p F st t).F = st.F := rfl

theorem backwardStep_b (p : KParams n m) (F : Mat n n) (st : KState n m)
    (t : ℕ) : (backwardStep p F st t).b = st.b := rfl

theorem backwardStep_x_pred (p : KParams n m) (F : Mat n n) (st : KState n m)
    (t : ℕ) : (backwardStep p F st t).x_pred = st.x_pred := rfl

theorem backwardStep_V_pred (p : KParams n m) (F : Mat n n) (st : KState n m)
    (t : ℕ) : (backwardStep p F st t).V_pred = st.V_pred := rfl

theorem backwardStep_x_filt (p : KParams n m) (F : Mat n n) (st : KState n m)
    (t : ℕ) : (backwardStep p F st t).x_filt = st.x_filt := rfl

theorem backwardStep_V_filt (p : KParams n m) (F : Mat n n) (st : KState n m)
    (t : ℕ) : (backwardStep p F st t).V_filt = st.V_filt := rfl

theorem backwardStep_Fs (p : KParams n m) (F : Mat n n) (st : KState n m)
    (t : ℕ) : (backwardStep p F st t).Fs = st.Fs := rfl

theorem backwardLoop_F (p : KParams n m) (F : Mat n n) (st : KState n m)
    (s : ℕ) : ∀ k, (backwardLoop p F st s k).F = st.F := by
  intro k
  induction k with
  | zero => rfl
  | succ k ih => simp [backwardLoop, backwardStep_F, ih]

theorem backwardLoop_b (p : KParams n m) (F : Mat n n) (st : KState n m)
    (s : ℕ) : ∀ k, (backwardLoop p F st s k).b = st.b := by
  intro k
  induction k with
  | zero => rfl
  | succ k ih => simp [backwardLoop, backwardStep_b, ih]

theorem backwardLoop_x_pred (p : KParams n m) (F : Mat n n) (st : KState n m)
    (s : ℕ) : ∀ k, (backwardLoop p F st s k).x_pred = st.x_pred := by
  intro k
  induction k with
  | zero => rfl
  | succ k ih => simp [backwardLoop, backwardStep_x_pred, ih]

theorem backwardLoop_V_pred (p : KParams n m) (F : Mat n n) (st : KState n m)
    (s : ℕ) : ∀ k, (backwardLoop p F st s k).V_pred = st.V_pred := by
  intro k
  induction k with
  | zero => rfl
  | succ k ih => simp [backwardLoop, backwardStep_V_pred, ih]

theorem backwardLoop_x_filt (p : KParams n m) (F : Mat n n) (st : KState n m)
    (s : ℕ) : ∀ k, (backwardLoop p F st s k).x_filt = st.x_filt := by
  intro k
  induction k with
  | zero => rfl
  | succ k ih => simp [backwardLoop, backwardStep_x_filt, ih]

theorem backwardLoop_V_filt (p : KParams n m) (F : Mat n n) (st : KState n m)
    (s : ℕ) : ∀ k, (backwardLoop p F st s k).V_filt = st.V_filt := by
  intro k
  induction k with
  | zero => rfl
  | succ k ih => simp [backwardLoop, backwardStep_V_filt, ih]

theorem backwardLoop_Fs (p : KParams n m) (F : Mat n n) (st : KState n m)
    (s : ℕ) : ∀ k, (backwardLoop p F st s k).Fs = st.Fs := by
  intro k
  induction k with
  | zero => rfl
  | succ k ih => simp [backwardLoop, backwardStep_Fs, ih]

theorem backward_F (p : KParams n m) (st : KState n m) (s tau : ℕ)
    (F : Mat n n) : (backward p st s tau F).F = st.F := by
  simp [backward, backwardLoop_F]

theorem backward_b (p : KParams n m) (st : KState n m) (s tau : ℕ)
    (F : Mat n n) : (backward p st s tau F).b = st.b := by
  simp [backward, backwardLoop_b]

theorem backward_x_pred (p : KParams n m) (st : KState n m) (s tau : ℕ)
    (F : Mat n n) : (backward p st s tau F).x_pred = st.x_pred := by
  simp [backward, backwardLoop_x_pred]

theorem backward_V_pred (p : KParams n m) (st : KState n m) (s tau : ℕ)
    (F : Mat n n) : (backward p st s tau F).V_pred = st.V_pred := by
  simp [backward, backwardLoop_V_pred]

theorem backward_x_filt (p : KParams n m) (st : KState n m) (s tau : ℕ)
    (F : Mat n n) : (backward p st s tau F).x_filt = st.x_filt := by
  simp [backward, backwardLoop_x_filt]

theorem backward_V_filt (p : KParams n m) (st : KState n m) (s tau : ℕ)
    (F : Mat n n) : (backward p st s tau F).V_filt = st.V_filt := by
  simp [backward, backwardLoop_V_filt]

theorem backward_Fs (p : KParams n m) (st : KState n m) (s tau : ℕ)
    (F : Mat n n) : (backward p st s tau F).Fs = st.Fs := by
  simp [backward, backwardLoop_Fs]

theorem resetPredAt_F (st : KState n m) (s : ℕ) :
    (resetPredAt st s).F = st.F := rfl

theorem resetPredAt_b (st : KState n m) (s : ℕ) :
    (resetPredAt st s).b = st.b := rfl

theorem resetPredAt_x_filt (st : KState n m) (s : ℕ) :
    (resetPredAt st s).x_filt = st.x_filt := rfl

theorem resetPredAt_V_filt (st : KState n m) (s : ℕ) :
    (resetPredAt st s).V_filt = st.V_filt := rfl

theorem resetPredAt_x_smooth (st : KState n m) (s : ℕ) :
    (resetPredAt st s).x_smooth = st.x_smooth := rfl

theorem resetPredAt_V_smooth (st : KState n m) (s : ℕ) :
    (resetPredAt st s).V_smooth = st.V_smooth := rfl

theorem resetPredAt_V_pair (st : KState n m) (s : ℕ) :
    (resetPredAt st s).V_pair = st.V_pair := rfl

theorem resetPredAt_Fs (st : KState n m) (s : ℕ) :
    (resetPredAt st s).Fs = st.Fs := rfl

theorem fwdSteps_F (p : KParams n m) (Fo : Option (Mat n n)) :
    ∀ k st t0, (fwdSteps p Fo st t0 k).F = st.F := by
  intro k
  induction k with
  | zero => intro st t0; rfl
  | succ k ih =>
    intro st t0
    simp [fwdSteps, ih, filterUpdate_F, predictUpdate_F]

theorem fwdSteps_b (p : KParams n m) (Fo : Option (Mat n n)) :
    ∀ k st t0, (fwdSteps p Fo st t0 k).b = st.b := by
  intro k
  induction k with
  | zero => intro st t0; rfl
  | succ k ih =>
    intro st t0
    simp [fwdSteps, ih, filterUpdate_b, predictUpdate_b]

theorem fwdSteps_x_smooth (p : KParams n m) (Fo : Option (Mat n n)) :
    ∀ k st t0, (fwdSteps p Fo st t0 k).x_smooth = st.x_smooth := by
  intro k
  induction k with
  | zero => intro st t0; rfl
  | succ k ih =>
    intro st t0
    simp [fwdSteps, ih, filterUpdate_x_smooth, predictUpdate_x_smooth]

theorem fwdSteps_V_smooth (p : KParams n m) (Fo : Option (Mat n n)) :
    ∀ k st t0, (fwdSteps p Fo st t0 k).V_smooth = st.V_smooth := by
  intro k
  induction k with
  | zero => intro st t0; rfl
  | succ k ih =>
    intro st t0
    simp [fwdSteps, ih, filterUpdate_V_smooth, predictUpdate_V_smooth]

theorem fwdSteps_V_pair (p : KParams n m) (Fo : Option (Mat n n)) :
    ∀ k st t0, (fwdSteps p Fo st t0 k).V_pair = st.V_pair := by
  intro k
  induction k with
  | zero => intro st t0; rfl
  | succ k ih =>
    intro st t0
    simp [fwdSteps, ih, filterUpdate_V_pair, predictUpdate_V_pair]

theorem fwdSteps_Fs (p : KParams n m) (Fo : Option (Mat n n)) :
    ∀ k st t0, (fwdSteps p Fo st t0 k).Fs = st.Fs := by
  intro k
  induction k with
  | zero => intro st t0; rfl
  | succ k ih =>
    intro st t0
    simp [fwdSteps, ih, filterUpdate_Fs, predictUpdate_Fs]

/-- Closed form of `_update_transition_matrix`: it succeeds precisely when
`"F"` is in `em_vars`. -/
theorem updateTransitionMatrix_eq (p : KParams n m) (st : KState n m)
    (s tau : ℕ) (F : Mat n n) :
    updateTransitionMatrix p st s tau F =
      if p.emF then
        .ok (res1Sum (backward p st s tau F) s tau *
              p.pinvN (res2Sum (backward p st s tau F) s tau),
          if p.emB ∧ 1 < tau then
            { backward p st s tau F with
              b := dampedStepV (backward p st s tau F).b
                (bEst (backward p st s tau F) s tau) p.etab p.cutoffb }
          else backward p st s tau F)
      else .error .unboundLocalFEst := by
  by_cases h : p.emF <;> simp [updateTransitionMatrix, h]

theorem updateTransitionMatrix_ok_frame (p : KParams n m) (st : KState n m)
    (s tau : ℕ) (F Fe : Mat n n) (st' : KState n m)
    (h : updateTransitionMatrix p st s tau F = .ok (Fe, st')) :
    st'.F = st.F ∧ st'.x_pred = st.x_pred ∧ st'.V_pred = st.V_pred ∧
      st'.x_filt = st.x_filt ∧ st'.V_filt = st.V_filt ∧ st'.Fs = st.Fs := by
  rw [updateTransitionMatrix_eq] at h
  by_cases hF : p.emF
  · simp only [hF, if_true] at h
    have hst : st' = (if p.emB ∧ 1 < tau then
        { backward p st s tau F with
          b := dampedStepV (backward p st s tau F).b
            (bEst (backward p st s tau F) s tau) p.etab p.cutoffb }
      else backward p st s tau F) := by
      cases h
      rfl
    subst hst
    by_cases hB : p.emB ∧ 1 < tau <;>
      simp [hB, backward_F, backward_x_pred, backward_V_pred,
        backward_x_filt, backward_V_filt, backward_Fs]
  · simp [hF] at h

/-- If `"b"` is not in `em_vars`, `_update_transition_matrix` leaves `self.b`
unchanged. -/
theorem updateTransitionMatrix_ok_b (p : KParams n m) (st : KState n m)
    (s tau : ℕ) (F Fe : Mat n n) (st' : KState n m) (hB : p.emB = false)
    (h : updateTransitionMatrix p st s tau F = .ok (Fe, st')) :
    st'.b = st.b := by
  rw [updateTransitionMatrix_eq] at h
  by_cases hF : p.emF
  · simp only [hF, if_true] at h
    have hst : st' = (if p.emB ∧ 1 < tau then
        { backward p st s tau F with
          b := dampedStepV (backward p st s tau F).b
            (bEst (backward p st s tau F) s tau) p.etab p.cutoffb }
      else backward p st s tau F) := by
      cases h
      rfl
    subst hst
    simp [hB, backward_b]
  · simp [hF] at h

theorem emIterStep_ok_frame (p : KParams n m) (s : ℕ) (Fest : Mat n n)
    (st : KState n m) (isFirst : Bool) (F2 : Mat n n) (st3 : KState n m)
    (h : emIterStep p s Fest st isFirst = .ok (F2, st3)) :
    st3.F = st.F ∧ st3.Fs = st.Fs := by
  unfold emIterStep at h
  by_cases hT : p.T = 1
  · simp [hT] at h
  · simp only [hT, if_false] at h
    have hfr := updateTransitionMatrix_ok_frame _ _ _ _ _ _ _ h
    constructor
    · rw [hfr.1, fwdSteps_F]
      cases isFirst <;> simp [resetPredAt_F]
    · rw [hfr.2.2.2.2.2, fwdSteps_Fs]
      cases isFirst <;> simp [resetPredAt_Fs]

theorem emIterStep_ok_b (p : KParams n m) (s : ℕ) (Fest : Mat n n)
    (st : KState n m) (isFirst : Bool) (F2 : Mat n n) (st3 : KState n m)
    (hB : p.emB = false) (h : emIterStep p s Fest st isFirst = .ok (F2, st3)) :
    st3.b = st.b := by
  unfold emIterStep at h
  by_cases hT : p.T = 1
  · simp [hT] at h
  · simp only [hT, if_false] at h
    rw [updateTransitionMatrix_ok_b _ _ _ _ _ _ _ hB h, fwdSteps_b]
    cases isFirst <;> simp [resetPredAt_b]

theorem emIters_ok_frame (p : KParams n m) (s : ℕ) :
    ∀ fuel (Fest : Mat n n) (st : KState n m) (isFirst : Bool)
      (Ff : Mat n n) (st' : KState n m),
      emIters p s fuel Fest st isFirst = .ok (Ff, st') →
      st'.F = st.F ∧ st'.Fs = st.Fs := by
  intro fuel
  induction fuel with
  | zero =>
    intro Fest st isFirst Ff st' h
    simp only [emIters, Except.ok.injEq, Prod.mk.injEq] at h
    rw [← h.2]
    exact ⟨rfl, rfl⟩
  | succ fuel ih =>
    intro Fest st isFirst Ff st' h
    simp only [emIters] at h
    cases hs : emIterStep p s Fest st isFirst with
    | error e => rw [hs] at h; exact absurd h (by simp)
    | ok pr =>
      obtain ⟨F2, st3⟩ := pr
      rw [hs] at h
      have h1 := ih F2 st3 false Ff st' h
      have h2 := emIterStep_ok_frame _ _ _ _ _ _ _ hs
      exact ⟨h1.1.trans h2.1, h1.2.trans h2.2⟩

theorem emIters_ok_b (p : KParams n m) (s : ℕ) (hB : p.emB = false) :
    ∀ fuel (Fest : Mat n n) (st : KState n m) (isFirst : Bool)
      (Ff : Mat n n) (st' : KState n m),
      emIters p s fuel Fest st isFirst = .ok (Ff, st') → st'.b = st.b := by
  intro fuel
  induction fuel with
  | zero =>
    intro Fest st isFirst Ff st' h
    simp only [emIters, Except.ok.injEq, Prod.mk.injEq] at h
    rw [← h.2]
  | succ fuel ih =>
    intro Fest st isFirst Ff st' h
    simp only [emIters] at h
    cases hs : emIterStep p s Fest st isFirst with
    | error e => rw [hs] at h; exact absurd h (by simp)
    | ok pr =>
      obtain ⟨F2, st3⟩ := pr
      rw [hs] at h
      exact (ih F2 st3 false Ff st' h).trans
        (emIterStep_ok_b _ _ _ _ _ _ _ hB hs)

theorem updateTransitionMatrixApprox_b (p : KParams n m) (st : KState n m)
    (t : ℕ) : (updateTransitionMatrixApprox p st t).b = st.b := rfl

theorem updateTransitionMatrixApprox_x_smooth (p : KParams n m)
    (st : KState n m) (t : ℕ) :
    (updateTransitionMatrixApprox p st t).x_smooth = st.x_smooth := rfl

theorem updateTransitionMatrixApprox_V_smooth (p : KParams n m)
    (st : KState n m) (t : ℕ) :
    (updateTransitionMatrixApprox p st t).V_smooth = st.V_smooth := rfl

theorem updateTransitionMatrixApprox_V_pair (p : KParams n m)
    (st : KState n m) (t : ℕ) :
    (updateTransitionMatrixApprox p st t).V_pair = st.V_pair := rfl

theorem filterStepAt_b (p : KParams n m) (st : KState n m) (t : ℕ) :
    (filterStepAt p st t).b = st.b := by
  unfold filterStepAt
  rw [filterUpdate_b, predictUpdate_b]
  by_cases h : (t - 1) % p.tau = 0 ∧ t < p.T - p.tau <;>
    simp [h, updateTransitionMatrixApprox_b, fwdSteps_b]

theorem filterStepAt_x_smooth (p : KParams n m) (st : KState n m) (t : ℕ) :
    (filterStepAt p st t).x_smooth = st.x_smooth := by
  unfold filterStepAt
  rw [filterUpdate_x_smooth, predictUpdate_x_smooth]
  by_cases h : (t - 1) % p.tau = 0 ∧ t < p.T - p.tau <;>
    simp [h, updateTransitionMatrixApprox_x_smooth, fwdSteps_x_smooth]

theorem filterStepAt_V_smooth (p : KParams n m) (st : KState n m) (t : ℕ) :
    (filterStepAt p st t).V_smooth = st.V_smooth := by
  unfold filterStepAt
  rw [filterUpdate_V_smooth, predictUpdate_V_smooth]
  by_cases h : (t - 1) % p.tau = 0 ∧ t < p.T - p.tau <;>
    simp [h, updateTransitionMatrixApprox_V_smooth, fwdSteps_V_smooth]

theorem filterStepAt_V_pair (p : KParams n m) (st : KState n m) (t : ℕ) :
    (filterStepAt p st t).V_pair = st.V_pair := by
  unfold filterStepAt
  rw [filterUpdate_V_pair, predictUpdate_V_pair]
  by_cases h : (t - 1) % p.tau = 0 ∧ t < p.T - p.tau <;>
    simp [h, updateTransitionMatrixApprox_V_pair, fwdSteps_V_pair]

theorem filterSteps_b (p : KParams n m) :
    ∀ k st t, (filterSteps p st t k).b = st.b := by
  intro k
  induction k with
  | zero => intro st t; rfl
  | succ k ih => intro st t; simp [filterSteps, ih, filterStepAt_b]

theorem filterSteps_x_smooth (p : KParams n m) :
    ∀ k st t, (filterSteps p st t k).x_smooth = st.x_smooth := by
  intro k
  induction k with
  | zero => intro st t; rfl
  | succ k ih => intro st t; simp [filterSteps, ih, filterStepAt_x_smooth]

theorem filterSteps_V_smooth (p : KParams n m) :
    ∀ k st t, (filterSteps p st t k).V_smooth = st.V_smooth := by
  intro k
  induction k with
  | zero => intro st t; rfl
  | succ k ih => intro st t; simp [filterSteps, ih, filterStepAt_V_smooth]

theorem filterSteps_V_pair (p : KParams n m) :
    ∀ k st t, (filterSteps p st t k).V_pair = st.V_pair := by
  intro k
  induction k with
  | zero => intro st t; rfl
  | succ k ih => intro st t; simp [filterSteps, ih, filterStepAt_V_pair]

/-! ## The damped-clip update bound -/

theorem abs_clipQ_le (x c : ℚ) (hc : 0 ≤ c) : |clipQ x (-c) c| ≤ c := by
  rw [abs_le]
  constructor
  · exact le_min (le_max_left _ _) (by linarith)
  · exact min_le_right _ _

theorem abs_dampedStepM_sub (old est : Mat n n) (rate c : ℚ) (hr : 0 ≤ rate)
    (hc : 0 ≤ c) (i : Fin n) (j : Fin n) :
    |dampedStepM old est rate c i j - old i j| ≤ rate * c := by
  have : dampedStepM old est rate c i j - old i j
      = -(rate * clipQ (old i j - est i j) (-c) c) := by
    simp only [dampedStepM, Matrix.of_apply]
    ring
  rw [this, abs_neg, abs_mul, abs_of_nonneg hr]
  exact mul_le_mul_of_nonneg_left (abs_clipQ_le _ _ hc) hr

theorem abs_dampedStepV_sub (old est : Vec n) (rate c : ℚ) (hr : 0 ≤ rate)
    (hc : 0 ≤ c) (i : Fin n) :
    |dampedStepV old est rate c i - old i| ≤ rate * c := by
  have : dampedStepV old est rate c i - old i
      = -(rate * clipQ (old i - est i) (-c) c) := by
    simp only [dampedStepV]
    ring
  rw [this, abs_neg, abs_mul, abs_of_nonneg hr]
  exact mul_le_mul_of_nonneg_left (abs_clipQ_le _ _ hc) hr

/-- The new `self.F` produced by a smooth-mode block is the damped-clip update
of the block-entry `self.F` (which no inner operation of the block mutates),
for some candidate matrix. -/
theorem smoothBlockStep_ok_F (p : KParams n m) (st : KState n m) (s : ℕ)
    (st' : KState n m) (h : smoothBlockStep p st s = .ok st') :
    ∃ Ffin, st'.F = dampedStepM st.F Ffin p.eta p.cutoff := by
  unfold smoothBlockStep at h
  cases he : emIters p s p.iteration st.F
      (filterUpdate p (if s ≠ 0 then predictUpdate p st s (some st.F) else st) s) true with
  | error e => rw [he] at h; exact absurd h (by simp)
  | ok pr =>
    obtain ⟨Ffin, st2⟩ := pr
    rw [he] at h
    simp only [Except.ok.injEq] at h
    refine ⟨Ffin, ?_⟩
    have h2 : st2.F = st.F := by
      have := (emIters_ok_frame p s p.iteration _ _ true Ffin st2 he).1
      rw [this, filterUpdate_F]
      by_cases hs : s ≠ 0 <;> simp [hs, predictUpdate_F]
    rw [← h, ← h2]

/-- C1.  For every block update in either mode — the smooth-mode update of
`F` (lines 268-269), the smooth-mode update of `b` (lines 405-406) and the
filter-mode approximate update of `F` (lines 426-427) — the damped-clip rule
bounds every entry's movement: no entry of the transition matrix moves by
more than `eta * cutoff` and no entry of the transition offset moves by more
than `etab * cutoffb`, whatever the candidate estimates are. -/
theorem C1_single_update_clip_bound (p : KParams n m)
    (h1 : 0 ≤ p.eta) (h2 : 0 ≤ p.cutoff) (h3 : 0 ≤ p.etab)
    (h4 : 0 ≤ p.cutoffb) :
    (∀ st t i j,
      |(updateTransitionMatrixApprox p st t).F i j - st.F i j| ≤
        p.eta * p.cutoff) ∧
    (∀ st s st', smoothBlockStep p st s = .ok st' →
      ∀ i j, |st'.F i j - st.F i j| ≤ p.eta * p.cutoff) ∧
    (∀ st s tau F Fe st', updateTransitionMatrix p st s tau F = .ok (Fe, st') →
      ∀ i, |st'.b i - st.b i| ≤ p.etab * p.cutoffb) := by
  refine ⟨?_, ?_, ?_⟩
  · intro st t i j
    exact abs_dampedStepM_sub _ _ _ _ h1 h2 i j
  · intro st s st' h i j
    obtain ⟨Ffin, hF⟩ := smoothBlockStep_ok_F p st s st' h
    rw [hF]
    exact abs_dampedStepM_sub _ _ _ _ h1 h2 i j
  · intro st s tau F Fe st' h i
    rw [updateTransitionMatrix_eq] at h
    by_cases hF : p.emF
    · simp only [hF, if_true] at h
      have hst : st' = (if p.emB ∧ 1 < tau then
          { backward p st s tau F with
            b := dampedStepV (backward p st s tau F).b
              (bEst (backward p st s tau F) s tau) p.etab p.cutoffb }
        else backward p st s tau F) := by
        cases h
        rfl
      subst hst
      by_cases hB : p.emB ∧ 1 < tau
      · simp only [hB, if_true]
        have hb := backward_b p st s tau F
        calc |dampedStepV (backward p st s tau F).b
                (bEst (backward p st s tau F) s tau) p.etab p.cutoffb i - st.b i|
            = |dampedStepV (backward p st s tau F).b
                (bEst (backward p st s tau F) s tau) p.etab p.cutoffb i -
                (backward p st s tau F).b i| := by rw [hb]
          _ ≤ p.etab * p.cutoffb := abs_dampedStepV_sub _ _ _ _ h3 h4 i
      · simp only [hB, if_false, backward_b, sub_self, abs_zero]
        exact mul_nonneg h3 h4
    · simp [hF] at h

/-- An adversarial state for the witness: enormous filtered statistics, so the
candidate estimates are far from the current parameters. -/
def stAdv : KState 1 1 :=
  { F := Matrix.of fun _ _ => 1
    b := fun _ => 0
    x_pred := fun _ _ => 1000000
    V_pred := fun _ => Matrix.of fun _ _ => 1
    x_filt := fun _ _ => 1000000
    V_filt := fun _ => Matrix.of fun _ _ => 1
    x_smooth := fun _ _ => 1000000
    V_smooth := fun _ => Matrix.of fun _ _ => 1
    V_pair := fun _ => Matrix.of fun _ _ => 1
    Fs := fun _ => Matrix.of fun _ _ => 0 }

/-- The configuration used by the concrete scalar checks below. -/
def pW : KParams 1 1 := mkP .filter 6 (fun t => t) true true 2 1

theorem C1_witness :
    (0 ≤ pW.eta ∧ 0 ≤ pW.cutoff ∧ 0 ≤ pW.etab ∧ 0 ≤ pW.cutoffb) ∧
    |(updateTransitionMatrixApprox pW stAdv 1).F 0 0 - stAdv.F 0 0| ≤
      pW.eta * pW.cutoff :=
  ⟨⟨by with_unfolding_all decide, by with_unfolding_all decide, by with_unfolding_all decide, by with_unfolding_all decide⟩,
    (C1_single_update_clip_bound pW (by with_unfolding_all decide) (by with_unfolding_all decide) (by with_unfolding_all decide)
      (by with_unfolding_all decide)).1 stAdv 1 0 0⟩

/-! ## The filter-update formulas (claim C6) -/

/-- The Kalman gain exactly as the spec writes it:
`K = cov_pred · Hᵗ · (H · cov_pred · Hᵗ + R)⁺` (left-associated), with the
backend pseudo-inverse in place of an inverse. -/
def specKalmanGain (p : KParams n m) (V : Mat n n) : Matrix (Fin n) (Fin m) ℚ :=
  V * p.H.transpose * p.pinvM (p.H * V * p.H.transpose + p.R)

/-- C6.  `_filter_update(t)` computes the filtered moments by the spec's
formulas: `x_filt[t] = x_pred[t] + K·(y[t] − H·x_pred[t] − d)` and
`V_filt[t] = V_pred[t] − K·H·V_pred[t]`, with
`K = V_pred[t]·Hᵀ·(H·V_pred[t]·Hᵀ + R)⁺`; the code's groupings differ from the
spec's only by associativity of matrix product and of vector subtraction.
The pseudo-inverse is the total backend capability, so the update cannot
raise on a singular innovation covariance. -/
theorem C6_filter_update_formulas (p : KParams n m) (st : KState n m) (t : ℕ) :
    (filterUpdate p st t).x_filt t =
      st.x_pred t + (specKalmanGain p (st.V_pred t)).mulVec
        (p.y t - p.H.mulVec (st.x_pred t) - p.d) ∧
    (filterUpdate p st t).V_filt t =
      st.V_pred t - specKalmanGain p (st.V_pred t) * p.H * st.V_pred t := by
  constructor
  · simp [filterUpdate, specKalmanGain, wr, Matrix.mul_assoc,
      sub_add_eq_sub_sub]
  · simp [filterUpdate, specKalmanGain, wr, Matrix.mul_assoc]

/-! ## Closed-form checks of the failing claims -/

/-- The exception escaping a `forward()` call, if any. -/
def runErr (r : Except PyErr (KState n m)) : Option PyErr :=
  match r with
  | .error e => some e
  | .ok _ => none

/-- Smooth mode with the EM-update set empty (claim C2's configuration):
`em_vars = []`, `T = 2`, `tau = 1`, constant observations. -/
def pC2 : KParams 1 1 := mkP .smooth 2 (fun _ => 1) false false 1 1

/-- C2.  With the EM-update set empty, a smooth-mode run does *not* complete:
`_update_transition_matrix` skips the `"F" in em_vars` branch but still ends
with `return F_est`, reading a local that was never assigned, so the first
block raises `UnboundLocalError`. -/
theorem C2_empty_em_vars_run_raises :
    runErr (forward pC2) = some .unboundLocalFEst := by with_unfolding_all decide

/-- Configuration for the accessor checks: scalar model, `T = 2`. -/
def pAcc : KParams 1 1 := mkP .filter 2 (fun _ => 1) true false 1 1

/-- C8.  On a state dimensionality of `1`, requesting coordinate `dim = 1`
(equal to the dimensionality) passes the accessors' `dim <= shape[1]` guard
and dies inside numpy column indexing with `IndexError`, not `ValueError`;
`dim = 2` reaches the `raise ValueError(...)` line, whose message
concatenates `str` and `int`, so `TypeError` escapes instead; and `dim = -1`
is accepted and silently wraps around. -/
theorem C8_dim_guard_off_by_one :
    errOf (getFilteredValue pAcc (some (initState pAcc)) (some 1)) =
        some .indexError ∧
    errOf (getPredictedValue pAcc (some (initState pAcc)) (some 1)) =
        some .indexError ∧
    errOf (getSmoothedValue pAcc (some (initState pAcc)) (some 1)) =
        some .indexError ∧
    errOf (getFilteredValue pAcc (some (initState pAcc)) (some 2)) =
        some .typeError ∧
    trajOk (getFilteredValue pAcc (some (initState pAcc)) (some (-1))) =
        true := by
  decide

/-- C9.  Called before any run, `get_predicted_value` and
`get_filtered_value` lazily trigger `forward()` and return, but
`get_smoothed_value`'s lazy branch calls `self.smooth()` — no such method
exists on the class — so it raises `AttributeError` instead of computing the
trajectories. -/
theorem C9_lazy_smoothed_raises :
    errOf (getSmoothedValue pAcc none none) = some .attributeError ∧
    trajOk (getFilteredValue pAcc none none) = true ∧
    trajOk (getPredictedValue pAcc none none) = true := by
  decide

/-! ## Mode-resolved forms of `forward` -/

theorem forward_filter (p : KParams n m) (hm : p.mode = .filter) :
    forward p = if p.tau = 0 ∧ 2 ≤ p.T then .error .zeroDivisionError
      else .ok (filterSteps p (filterUpdate p (initState p) 0) 1 (p.T - 1)) := by
  unfold forward
  rw [hm]

theorem forward_smooth (p : KParams n m) (hm : p.mode = .smooth) :
    forward p = if p.tau = 0 then .error .valueError
      else smoothBlocks p (initState p) 0 (numBlocks p) := by
  unfold forward
  rw [hm]

/-! ## C5: the filter mode never records pairwise covariances -/

/-- C5.  In filter mode the look-ahead calls plain `_predict_update` /
`_filter_update` (lines 279-280), never the `_pair` variants, and `_backward`
is never reached; so `V_pair` keeps its `xp.zeros` allocation for the whole
run and the approximate M-step regresses against all-zero pairwise
covariances. -/
theorem C5_filter_mode_V_pair_zero (p : KParams n m) (st : KState n m)
    (hm : p.mode = .filter) (hok : forward p = .ok st) :
    ∀ t, st.V_pair t = 0 := by
  intro t
  rw [forward_filter p hm] at hok
  by_cases hz : p.tau = 0 ∧ 2 ≤ p.T
  · rw [if_pos hz] at hok
    exact absurd hok (by simp)
  · rw [if_neg hz] at hok
    have hst : st = filterSteps p (filterUpdate p (initState p) 0) 1 (p.T - 1) := by
      cases hok
      rfl
    subst hst
    rw [filterSteps_V_pair, filterUpdate_V_pair]
    rfl

/-- Filter-mode run used as the concrete instance for C5: `T = 4`, `tau = 1`,
so a look-ahead and an approximate M-step happen at `t = 1` and `t = 2`. -/
def pC5 : KParams 1 1 := mkP .filter 4 (fun t => t) true false 1 1

theorem C5_witness :
    pC5.mode = .filter ∧
    (filterSteps pC5 (filterUpdate pC5 (initState pC5) 0) 1 (pC5.T - 1)).V_pair 2
      = 0 :=
  ⟨rfl, C5_filter_mode_V_pair_zero pC5 _ rfl (by with_unfolding_all rfl) 2⟩

/-! ## C3: which parameters the EM-update set actually protects -/

/-- On the diagonal the clipped step vanishes: updating toward the current
value itself leaves `F` unchanged (needs a nonnegative cutoff). -/
theorem dampedStepM_self (F : Mat n n) (rate c : ℚ) (hc : 0 ≤ c) :
    dampedStepM F F rate c = F := by
  ext i j
  have h1 : max (-c) 0 = 0 := max_eq_right (neg_nonpos.mpr hc)
  have h2 : min (0 : ℚ) c = 0 := min_eq_left hc
  simp [dampedStepM, clipQ, h1, h2]

theorem smoothBlockStep_ok_b (p : KParams n m) (st : KState n m) (s : ℕ)
    (st' : KState n m) (hB : p.emB = false)
    (h : smoothBlockStep p st s = .ok st') : st'.b = st.b := by
  unfold smoothBlockStep at h
  cases he : emIters p s p.iteration st.F
      (filterUpdate p (if s ≠ 0 then predictUpdate p st s (some st.F) else st) s)
      true with
  | error e => rw [he] at h; exact absurd h (by simp)
  | ok pr =>
    obtain ⟨Ffin, st2⟩ := pr
    rw [he] at h
    simp only [Except.ok.injEq] at h
    rw [← h]
    show st2.b = st.b
    rw [emIters_ok_b p s hB _ _ _ _ _ _ he, filterUpdate_b]
    by_cases hs : s ≠ 0 <;> simp [hs, predictUpdate_b]

theorem smoothBlocks_ok_b (p : KParams n m) (hB : p.emB = false) :
    ∀ k s (st st' : KState n m),
      smoothBlocks p st s k = .ok st' → st'.b = st.b := by
  intro k
  induction k with
  | zero =>
    intro s st st' h
    simp only [smoothBlocks, Except.ok.injEq] at h
    rw [← h]
  | succ k ih =>
    intro s st st' h
    simp only [smoothBlocks] at h
    cases hs : smoothBlockStep p st s with
    | error e => rw [hs] at h; exact absurd h (by simp)
    | ok st1 =>
      rw [hs] at h
      exact (ih _ _ _ h).trans (smoothBlockStep_ok_b p st s st1 hB hs)

/-- With `"F"` not in `em_vars`, every inner iteration raises, so a
successful `emIters` call must have done zero iterations and returns its
inputs unchanged. -/
theorem emIters_emF_false (p : KParams n m) (s : ℕ) (hF : p.emF = false) :
    ∀ fuel (Fest : Mat n n) (st : KState n m) (isFirst : Bool)
      (Ff : Mat n n) (st' : KState n m),
      emIters p s fuel Fest st isFirst = .ok (Ff, st') →
      Ff = Fest ∧ st' = st := by
  intro fuel
  cases fuel with
  | zero =>
    intro Fest st isFirst Ff st' h
    simp only [emIters, Except.ok.injEq, Prod.mk.injEq] at h
    exact ⟨h.1.symm, h.2.symm⟩
  | succ fuel =>
    intro Fest st isFirst Ff st' h
    simp only [emIters] at h
    have : ∃ e, emIterStep p s Fest st isFirst = .error e := by
      unfold emIterStep
      by_cases hT : p.T = 1
      · exact ⟨_, by rw [if_pos hT]⟩
      · refine ⟨.unboundLocalFEst, ?_⟩
        rw [if_neg hT, updateTransitionMatrix_eq]
        simp [hF]
    obtain ⟨e, he⟩ := this
    rw [he] at h
    exact absurd h (by simp)

theorem smoothBlockStep_emF_false (p : KParams n m) (st : KState n m) (s : ℕ)
    (st' : KState n m) (hF : p.emF = false) (hc : 0 ≤ p.cutoff)
    (h : smoothBlockStep p st s = .ok st') : st'.F = st.F := by
  unfold smoothBlockStep at h
  cases he : emIters p s p.iteration st.F
      (filterUpdate p (if s ≠ 0 then predictUpdate p st s (some st.F) else st) s)
      true with
  | error e => rw [he] at h; exact absurd h (by simp)
  | ok pr =>
    obtain ⟨Ffin, st2⟩ := pr
    rw [he] at h
    simp only [Except.ok.injEq] at h
    obtain ⟨hFf, hst2⟩ := emIters_emF_false p s hF _ _ _ _ _ _ he
    rw [← h]
    show dampedStepM st2.F Ffin p.eta p.cutoff = st.F
    have h2 : st2.F = st.F := by
      rw [hst2, filterUpdate_F]
      by_cases hs : s ≠ 0 <;> simp [hs, predictUpdate_F]
    rw [hFf, h2, dampedStepM_self _ _ _ hc]

theorem smoothBlocks_emF_false (p : KParams n m) (hF : p.emF = false)
    (hc : 0 ≤ p.cutoff) :
    ∀ k s (st st' : KState n m),
      smoothBlocks p st s k = .ok st' → st'.F = st.F := by
  intro k
  induction k with
  | zero =>
    intro s st st' h
    simp only [smoothBlocks, Except.ok.injEq] at h
    rw [← h]
  | succ k ih =>
    intro s st st' h
    simp only [smoothBlocks] at h
    cases hs : smoothBlockStep p st s with
    | error e => rw [hs] at h; exact absurd h (by simp)
    | ok st1 =>
      rw [hs] at h
      exact (ih _ _ _ h).trans (smoothBlockStep_emF_false p st s st1 hF hc hs)

/-- Filter-mode configuration with the transition matrix *excluded* from the
EM-update set: `em_vars = []`, `T = 3`, `tau = 1`. -/
def pC3 : KParams 1 1 := mkP .filter 3 (fun _ => 1) false false 1 1

/-- C3's counterexample.  With `"F"` not in `em_vars`, a filter-mode run still
mutates `self.F`: `_update_transition_matrix_approximately` never consults
`em_vars`, and after the look-ahead at `t = 1` the learned coefficient has
moved from `1` to `19/20`. -/
theorem C3_counterexample :
    pC3.emF = false ∧
    (forward pC3).toOption.map (fun st => st.F 0 0) = some (mkRat 19 20) ∧
    mkRat 19 20 ≠ pC3.F0 0 0 := by
  refine ⟨rfl, ?_, by with_unfolding_all decide⟩
  with_unfolding_all decide

/-- C3 as amended.  What the code actually guarantees: the transition offset
`b` keeps its initial value whenever `"b"` is not in `em_vars` (in *either*
mode — in filter mode `b` is in fact never touched at all), and the
transition matrix keeps its initial value in *smooth* mode whenever `"F"` is
not in `em_vars` (then a successful run can only have done zero inner
iterations).  In filter mode `F` is *not* protected by `em_vars`. -/
theorem C3_omitted_params_frame :
    (∀ (p : KParams n m) (st : KState n m), forward p = .ok st →
      p.emB = false → st.b = p.b0) ∧
    (∀ (p : KParams n m) (st : KState n m), forward p = .ok st →
      p.mode = .smooth → p.emF = false → 0 ≤ p.cutoff → st.F = p.F0) := by
  constructor
  · intro p st hok hB
    cases hm : p.mode
    · rw [forward_smooth p hm] at hok
      by_cases hz : p.tau = 0
      · rw [if_pos hz] at hok
        exact absurd hok (by simp)
      · rw [if_neg hz] at hok
        rw [smoothBlocks_ok_b p hB _ _ _ _ hok]
        rfl
    · rw [forward_filter p hm] at hok
      by_cases hz : p.tau = 0 ∧ 2 ≤ p.T
      · rw [if_pos hz] at hok
        exact absurd hok (by simp)
      · rw [if_neg hz] at hok
        have hst : st = filterSteps p (filterUpdate p (initState p) 0) 1 (p.T - 1) := by
          cases hok
          rfl
        subst hst
        rw [filterSteps_b, filterUpdate_b]
        rfl
  · intro p st hok hm hF hc
    rw [forward_smooth p hm] at hok
    by_cases hz : p.tau = 0
    · rw [if_pos hz] at hok
      exact absurd hok (by simp)
    · rw [if_neg hz] at hok
      rw [smoothBlocks_emF_false p hF hc _ _ _ _ hok]
      rfl

/-- A smooth-mode run with `"F"` excluded and zero inner iterations — the
only way a smooth-mode run can complete with `em_vars = []`. -/
def pC3s : KParams 1 1 := mkP .smooth 2 (fun _ => 1) false false 1 0

/-- The final state of the second concrete run for C3's witness. -/
def stC3s : KState 1 1 := (forward pC3s).toOption.getD (initState pC3s)

theorem C3_witness :
    (pC3.emB = false ∧
      (filterSteps pC3 (filterUpdate pC3 (initState pC3) 0) 1 (pC3.T - 1)).b
        = pC3.b0) ∧
    (pC3s.mode = .smooth ∧ pC3s.emF = false ∧ stC3s.F = pC3s.F0) :=
  ⟨⟨rfl, C3_omitted_params_frame.1 pC3 _ (by with_unfolding_all rfl) rfl⟩,
    ⟨rfl, rfl,
      C3_omitted_params_frame.2 pC3s stC3s (by with_unfolding_all rfl) rfl rfl
        (by with_unfolding_all decide)⟩⟩

/-! ## C10: the last slot of the filter-mode history buffer -/

theorem updateTransitionMatrixApprox_Fs_ne (p : KParams n m) (st : KState n m)
    (t j : ℕ) (hj : t / p.tau + 1 ≠ j) :
    (updateTransitionMatrixApprox p st t).Fs j = st.Fs j := by
  unfold updateTransitionMatrixApprox
  by_cases hs : p.store <;> simp [hs, wr, Ne.symm hj]

theorem filterStepAt_Fs_last (p : KParams n m) (st : KState n m) (t : ℕ)
    (htau : 1 ≤ p.tau) :
    (filterStepAt p st t).Fs ((p.T - 1) / p.tau + 1) =
      st.Fs ((p.T - 1) / p.tau + 1) := by
  unfold filterStepAt
  rw [filterUpdate_Fs, predictUpdate_Fs]
  by_cases hc : (t - 1) % p.tau = 0 ∧ t < p.T - p.tau
  · rw [if_pos hc]
    rw [updateTransitionMatrixApprox_Fs_ne, fwdSteps_Fs]
    have htT : t + p.tau ≤ p.T - 1 := by omega
    have hdiv : t / p.tau + 1 ≤ (p.T - 1) / p.tau := by
      calc t / p.tau + 1 = (t + p.tau) / p.tau := (Nat.add_div_right t htau).symm
        _ ≤ (p.T - 1) / p.tau := Nat.div_le_div_right htT
    omega
  · rw [if_neg hc]

theorem filterSteps_Fs_last (p : KParams n m) (htau : 1 ≤ p.tau) :
    ∀ k (st : KState n m) t,
      (filterSteps p st t k).Fs ((p.T - 1) / p.tau + 1) =
        st.Fs ((p.T - 1) / p.tau + 1) := by
  intro k
  induction k with
  | zero => intro st t; rfl
  | succ k ih =>
    intro st t
    simp only [filterSteps]
    rw [ih, filterStepAt_Fs_last p st t htau]

/-- C10.  In filter mode the approximate update at a look-ahead point `t`
writes history slot `t // tau + 1`, and the guard `t < T - tau` keeps that
index strictly below the last slot `(T-1) // tau + 1` of the buffer allocated
in the constructor; no other code writes `Fs`, so the last slot keeps its
`xp.zeros` value and the history can never end with the final learned `F`
(unless that is itself zero). -/
theorem C10_history_last_entry_zero (p : KParams n m) (st : KState n m)
    (hm : p.mode = .filter) (htau : 1 ≤ p.tau) (hst : p.store = true)
    (hok : forward p = .ok st) :
    st.Fs ((p.T - 1) / p.tau + 1) = 0 := by
  rw [forward_filter p hm] at hok
  have hz : ¬(p.tau = 0 ∧ 2 ≤ p.T) := by omega
  rw [if_neg hz] at hok
  have hstq : st = filterSteps p (filterUpdate p (initState p) 0) 1 (p.T - 1) := by
    cases hok
    rfl
  subst hstq
  rw [filterSteps_Fs_last p htau, filterUpdate_Fs]
  simp [initState, hst, wr]

/-- Filter-mode run for C10's concrete instance: `T = 4`, `tau = 1`, history
on; the buffer has 5 slots and the last one is index 4. -/
def pC10 : KParams 1 1 := mkP .filter 4 (fun t => t + 1) true false 1 1

theorem C10_witness :
    pC10.mode = .filter ∧ 1 ≤ pC10.tau ∧ pC10.store = true ∧
    (filterSteps pC10 (filterUpdate pC10 (initState pC10) 0) 1 (pC10.T - 1)).Fs
      ((pC10.T - 1) / pC10.tau + 1) = 0 :=
  ⟨rfl, by decide, rfl,
    C10_history_last_entry_zero pC10 _ rfl (by decide) rfl
      (by with_unfolding_all rfl)⟩

/-! ## C4: the backward boundary condition at the end of the run -/

/-- The backward loop never writes the smoothed mean at the block end `s`
(all its writes are at `s - 1, ..., s - k`). -/
theorem backwardLoop_x_smooth_hi (p : KParams n m) (F : Mat n n)
    (st : KState n m) (s : ℕ) :
    ∀ k, k ≤ s → (backwardLoop p F st s k).x_smooth s = st.x_smooth s := by
  intro k
  induction k with
  | zero => intro _; rfl
  | succ k ih =>
    intro hk
    have hne : s ≠ s - (k + 1) := by omega
    simp only [backwardLoop, backwardStep, wr, if_neg hne]
    exact ih (by omega)

/-- The backward loop never writes the smoothed covariance at the block end
`s`. -/
theorem backwardLoop_V_smooth_hi (p : KParams n m) (F : Mat n n)
    (st : KState n m) (s : ℕ) :
    ∀ k, k ≤ s → (backwardLoop p F st s k).V_smooth s = st.V_smooth s := by
  intro k
  induction k with
  | zero => intro _; rfl
  | succ k ih =>
    intro hk
    have hne : s ≠ s - (k + 1) := by omega
    simp only [backwardLoop, backwardStep, wr, if_neg hne]
    exact ih (by omega)

/-- Method `_backward(s, tau, F)` initialises the smoothed moments at `s` from the
filtered ones, and the loop leaves them there. -/
theorem backward_boundary (p : KParams n m) (st : KState n m) (s tau : ℕ)
    (F : Mat n n) (h : tau ≤ s) :
    (backward p st s tau F).x_smooth s = st.x_filt s ∧
    (backward p st s tau F).V_smooth s = st.V_filt s := by
  unfold backward
  constructor
  · rw [backwardLoop_x_smooth_hi _ _ _ _ tau h]
    simp [wr]
  · rw [backwardLoop_V_smooth_hi _ _ _ _ tau h]
    simp [wr]

theorem updateTransitionMatrix_ok_boundary (p : KParams n m) (st : KState n m)
    (s tau : ℕ) (F Fe : Mat n n) (st' : KState n m) (hts : tau ≤ s)
    (h : updateTransitionMatrix p st s tau F = .ok (Fe, st')) :
    st'.x_smooth s = st.x_filt s ∧ st'.V_smooth s = st.V_filt s := by
  rw [updateTransitionMatrix_eq] at h
  by_cases hF : p.emF
  · simp only [hF, if_true] at h
    have hst : st' = (if p.emB ∧ 1 < tau then
        { backward p st s tau F with
          b := dampedStepV (backward p st s tau F).b
            (bEst (backward p st s tau F) s tau) p.etab p.cutoffb }
      else backward p st s tau F) := by
      cases h
      rfl
    subst hst
    by_cases hB : p.emB ∧ 1 < tau
    · simp only [hB, if_true]
      exact backward_boundary p st s tau F hts
    · simp only [hB, if_false]
      exact backward_boundary p st s tau F hts
  · simp [hF] at h

/-- After one successful inner iteration for the block at `s`, the smoothed
and filtered moments agree at the block's effective end
`min(s + tau, T - 1)`. -/
theorem emIterStep_ok_boundary (p : KParams n m) (s : ℕ) (Fest : Mat n n)
    (st : KState n m) (isFirst : Bool) (F2 : Mat n n) (st3 : KState n m)
    (h : emIterStep p s Fest st isFirst = .ok (F2, st3)) :
    st3.x_smooth (min (s + p.tau) (p.T - 1)) =
      st3.x_filt (min (s + p.tau) (p.T - 1)) ∧
    st3.V_smooth (min (s + p.tau) (p.T - 1)) =
      st3.V_filt (min (s + p.tau) (p.T - 1)) := by
  unfold emIterStep at h
  by_cases hT : p.T = 1
  · rw [if_pos hT] at h
    exact absurd h (by simp)
  · rw [if_neg hT] at h
    have hts : min (s + p.tau + 1) p.T - s - 1 ≤ min (s + p.tau) (p.T - 1) := by
      omega
    have hb := updateTransitionMatrix_ok_boundary _ _ _ _ _ _ _ hts h
    have hf := updateTransitionMatrix_ok_frame _ _ _ _ _ _ _ h
    refine ⟨?_, ?_⟩
    · rw [hb.1, ← hf.2.2.2.1]
    · rw [hb.2, ← hf.2.2.2.2.1]

theorem emIters_succ_boundary (p : KParams n m) (s : ℕ) :
    ∀ fuel (Fest : Mat n n) (st : KState n m) (isFirst : Bool)
      (Ff : Mat n n) (st' : KState n m),
      emIters p s (fuel + 1) Fest st isFirst = .ok (Ff, st') →
      st'.x_smooth (min (s + p.tau) (p.T - 1)) =
        st'.x_filt (min (s + p.tau) (p.T - 1)) ∧
      st'.V_smooth (min (s + p.tau) (p.T - 1)) =
        st'.V_filt (min (s + p.tau) (p.T - 1)) := by
  intro fuel
  induction fuel with
  | zero =>
    intro Fest st isFirst Ff st' h
    simp only [emIters] at h
    cases hs : emIterStep p s Fest st isFirst with
    | error e => rw [hs] at h; exact absurd h (by simp)
    | ok pr =>
      obtain ⟨F2, st3⟩ := pr
      rw [hs] at h
      simp only [emIters, Except.ok.injEq, Prod.mk.injEq] at h
      rw [← h.2]
      exact emIterStep_ok_boundary p s Fest st isFirst F2 st3 hs
  | succ fuel ih =>
    intro Fest st isFirst Ff st' h
    simp only [emIters] at h
    cases hs : emIterStep p s Fest st isFirst with
    | error e => rw [hs] at h; exact absurd h (by simp)
    | ok pr =>
      obtain ⟨F2, st3⟩ := pr
      rw [hs] at h
      exact ih F2 st3 false Ff st' h

theorem smoothBlockStep_ok_boundary (p : KParams n m) (st : KState n m)
    (s : ℕ) (st' : KState n m) (hit : 1 ≤ p.iteration)
    (h : smoothBlockStep p st s = .ok st') :
    st'.x_smooth (min (s + p.tau) (p.T - 1)) =
      st'.x_filt (min (s + p.tau) (p.T - 1)) ∧
    st'.V_smooth (min (s + p.tau) (p.T - 1)) =
      st'.V_filt (min (s + p.tau) (p.T - 1)) := by
  unfold smoothBlockStep at h
  cases he : emIters p s p.iteration st.F
      (filterUpdate p (if s ≠ 0 then predictUpdate p st s (some st.F) else st) s)
      true with
  | error e => rw [he] at h; exact absurd h (by simp)
  | ok pr =>
    obtain ⟨Ffin, st2⟩ := pr
    rw [he] at h
    simp only [Except.ok.injEq] at h
    obtain ⟨f, hf⟩ : ∃ f, p.iteration = f + 1 := ⟨p.iteration - 1, by omega⟩
    rw [hf] at he
    have hb := emIters_succ_boundary p s f _ _ true Ffin st2 he
    rw [← h]
    exact hb

theorem smoothBlocks_last_boundary (p : KParams n m) (hit : 1 ≤ p.iteration) :
    ∀ k s (st st' : KState n m),
      smoothBlocks p st s (k + 1) = .ok st' →
      s + k * p.tau < p.T → p.T ≤ s + (k + 1) * p.tau →
      st'.x_smooth (p.T - 1) = st'.x_filt (p.T - 1) ∧
      st'.V_smooth (p.T - 1) = st'.V_filt (p.T - 1) := by
  intro k
  induction k with
  | zero =>
    intro s st st' h hlo hhi
    simp only [smoothBlocks] at h
    cases hs : smoothBlockStep p st s with
    | error e => rw [hs] at h; exact absurd h (by simp)
    | ok st1 =>
      rw [hs] at h
      simp only [smoothBlocks, Except.ok.injEq] at h
      have hmin : min (s + p.tau) (p.T - 1) = p.T - 1 := by omega
      have hb := smoothBlockStep_ok_boundary p st s st1 hit hs
      rw [hmin] at hb
      rw [← h]
      exact hb
  | succ k ih =>
    intro s st st' h hlo hhi
    simp only [smoothBlocks] at h
    cases hs : smoothBlockStep p st s with
    | error e => rw [hs] at h; exact absurd h (by simp)
    | ok st1 =>
      rw [hs] at h
      have e1 : (k + 1) * p.tau = k * p.tau + p.tau := by ring
      have e2 : (k + 1 + 1) * p.tau = (k + 1) * p.tau + p.tau := by ring
      exact ih (s + p.tau) st1 st' h (by omega) (by omega)

/-- C4 as amended.  In *smooth* mode, any completed run with at least one
inner iteration ends with `x_smooth[T-1] == x_filt[T-1]` and
`V_smooth[T-1] == V_filt[T-1]` exactly: the last block's final backward pass
initialises the smoothed moments at its effective end `min(s+tau, T-1) = T-1`
from the filtered ones, and nothing after that write touches either array.
(In filter mode the claim fails: `forward` never runs a backward pass there —
see the counterexample.) -/
theorem C4_smooth_boundary (p : KParams n m) (st : KState n m)
    (hm : p.mode = .smooth) (hit : 1 ≤ p.iteration) (hT : 1 ≤ p.T)
    (hok : forward p = .ok st) :
    st.x_smooth (p.T - 1) = st.x_filt (p.T - 1) ∧
    st.V_smooth (p.T - 1) = st.V_filt (p.T - 1) := by
  rw [forward_smooth p hm] at hok
  by_cases hz : p.tau = 0
  · rw [if_pos hz] at hok
    exact absurd hok (by simp)
  · rw [if_neg hz] at hok
    have htau0 : 0 < p.tau := by omega
    have hnb : numBlocks p = (p.T + p.tau - 1) / p.tau := rfl
    have hd := Nat.div_add_mod' (p.T + p.tau - 1) p.tau
    have hmod := Nat.mod_lt (p.T + p.tau - 1) htau0
    have hnb1 : 1 ≤ numBlocks p := by
      rw [hnb, Nat.one_le_div_iff htau0]
      omega
    have hsub : (numBlocks p - 1) * p.tau = numBlocks p * p.tau - p.tau :=
      Nat.sub_one_mul _ _
    have hA : p.T ≤ numBlocks p * p.tau := by
      rw [hnb]
      omega
    have hB : (numBlocks p - 1) * p.tau < p.T := by
      rw [hsub, hnb]
      omega
    obtain ⟨k, hk⟩ : ∃ k, numBlocks p = k + 1 := ⟨numBlocks p - 1, by omega⟩
    rw [hk] at hok
    refine smoothBlocks_last_boundary p hit k 0 (initState p) st hok ?_ ?_
    · have : k = numBlocks p - 1 := by omega
      rw [this]
      omega
    · have : k + 1 = numBlocks p := hk.symm
      rw [this]
      omega

/-- Filter-mode run for C4's counterexample: `T = 2`, `tau = 1`; no backward
pass ever runs, so the smoothed trajectory keeps its zero allocation. -/
def pC4 : KParams 1 1 := mkP .filter 2 (fun _ => 1) true false 1 1

/-- C4's counterexample.  In filter mode `forward` never computes smoothed
values: at the final index the smoothed mean is still the allocation zero
while the filtered mean is `4/5`, so `smoothed[T-1] ≠ filtered[T-1]`. -/
theorem C4_counterexample :
    (forward pC4).toOption.map
        (fun st => (st.x_smooth (pC4.T - 1) 0, st.x_filt (pC4.T - 1) 0)) =
      some (0, mkRat 4 5) ∧
    (0 : ℚ) ≠ mkRat 4 5 := by
  constructor
  · with_unfolding_all decide
  · with_unfolding_all decide

/-- Smooth-mode run for C4's witness: `T = 3`, `tau = 2`, two inner
iterations, both `F` and `b` learned. -/
def pC4w : KParams 1 1 := mkP .smooth 3 (fun _ => 1) true true 2 2

/-- The final state of the witness run. -/
def stC4w : KState 1 1 := (forward pC4w).toOption.getD (initState pC4w)

theorem C4_witness :
    (pC4w.mode = .smooth ∧ 1 ≤ pC4w.iteration ∧ 1 ≤ pC4w.T) ∧
    stC4w.x_smooth (pC4w.T - 1) = stC4w.x_filt (pC4w.T - 1) ∧
    stC4w.V_smooth (pC4w.T - 1) = stC4w.V_filt (pC4w.T - 1) :=
  ⟨⟨rfl, by decide, by decide⟩,
    C4_smooth_boundary pC4w stC4w rfl (by decide) (by decide)
      (by with_unfolding_all rfl)⟩

/-! ## C7: the smoother recurrence inside a block -/

/-- The smoother gain `A = cov_filt_t · F · (cov_pred_{t+1})⁺`, as both the
spec (§4.2) and line 458 of the source write it. -/
def smootherGain (p : KParams n m) (Vf Vp F : Mat n n) : Mat n n :=
  Vf * F * p.pinvN Vp

theorem backwardLoop_x_smooth_stable (p : KParams n m) (F : Mat n n)
    (st : KState n m) (s : ℕ) :
    ∀ d k i, k + d ≤ s → s - k ≤ i →
      (backwardLoop p F st s (k + d)).x_smooth i =
        (backwardLoop p F st s k).x_smooth i := by
  intro d
  induction d with
  | zero => intro k i _ _; rfl
  | succ d ih =>
    intro k i hkd hi
    have hne : i ≠ s - (k + d + 1) := by omega
    have hstep : backwardLoop p F st s (k + (d + 1)) =
        backwardStep p F (backwardLoop p F st s (k + d)) (s - (k + d + 1)) := rfl
    rw [hstep]
    simp only [backwardStep, wr, if_neg hne]
    exact ih k i (by omega) hi

theorem backwardLoop_V_smooth_stable (p : KParams n m) (F : Mat n n)
    (st : KState n m) (s : ℕ) :
    ∀ d k i, k + d ≤ s → s - k ≤ i →
      (backwardLoop p F st s (k + d)).V_smooth i =
        (backwardLoop p F st s k).V_smooth i := by
  intro d
  induction d with
  | zero => intro k i _ _; rfl
  | succ d ih =>
    intro k i hkd hi
    have hne : i ≠ s - (k + d + 1) := by omega
    have hstep : backwardLoop p F st s (k + (d + 1)) =
        backwardStep p F (backwardLoop p F st s (k + d)) (s - (k + d + 1)) := rfl
    rw [hstep]
    simp only [backwardStep, wr, if_neg hne]
    exact ih k i (by omega) hi

theorem backwardLoop_V_pair_stable (p : KParams n m) (F : Mat n n)
    (st : KState n m) (s : ℕ) :
    ∀ d k i, k + d ≤ s → s - k + 1 ≤ i →
      (backwardLoop p F st s (k + d)).V_pair i =
        (backwardLoop p F st s k).V_pair i := by
  intro d
  induction d with
  | zero => intro k i _ _; rfl
  | succ d ih =>
    intro k i hkd hi
    have hne : i ≠ s - (k + d + 1) + 1 := by omega
    have hstep : backwardLoop p F st s (k + (d + 1)) =
        backwardStep p F (backwardLoop p F st s (k + d)) (s - (k + d + 1)) := rfl
    rw [hstep]
    simp only [backwardStep, wr, if_neg hne]
    exact ih k i (by omega) hi

theorem backwardLoop_x_smooth_mono (p : KParams n m) (F : Mat n n)
    (st : KState n m) (s k k' i : ℕ) (hkk : k ≤ k') (hk's : k' ≤ s)
    (hi : s - k ≤ i) :
    (backwardLoop p F st s k').x_smooth i =
      (backwardLoop p F st s k).x_smooth i := by
  obtain ⟨d, rfl⟩ : ∃ d, k' = k + d := ⟨k' - k, by omega⟩
  exact backwardLoop_x_smooth_stable p F st s d k i hk's hi

theorem backwardLoop_V_smooth_mono (p : KParams n m) (F : Mat n n)
    (st : KState n m) (s k k' i : ℕ) (hkk : k ≤ k') (hk's : k' ≤ s)
    (hi : s - k ≤ i) :
    (backwardLoop p F st s k').V_smooth i =
      (backwardLoop p F st s k).V_smooth i := by
  obtain ⟨d, rfl⟩ : ∃ d, k' = k + d := ⟨k' - k, by omega⟩
  exact backwardLoop_V_smooth_stable p F st s d k i hk's hi

theorem backwardLoop_V_pair_mono (p : KParams n m) (F : Mat n n)
    (st : KState n m) (s k k' i : ℕ) (hkk : k ≤ k') (hk's : k' ≤ s)
    (hi : s - k + 1 ≤ i) :
    (backwardLoop p F st s k').V_pair i =
      (backwardLoop p F st s k).V_pair i := by
  obtain ⟨d, rfl⟩ : ∃ d, k' = k + d := ⟨k' - k, by omega⟩
  exact backwardLoop_V_pair_stable p F st s d k i hk's hi

/-- C7.  Inside a block ending at `s`, for every `t` from `s-1` down to
`s-τ`, the values left by `_backward` satisfy the RTS recurrences, with the
already-final smoothed values at `t+1` on the right-hand side:
`A = V_filt[t]·F·(V_pred[t+1])⁺`,
`x_smooth[t] = x_filt[t] + A·(x_smooth[t+1] − x_pred[t+1])`,
`V_smooth[t] = V_filt[t] + A·(V_smooth[t+1] − V_pred[t+1])·Aᵀ`,
`V_pair[t+1] = V_smooth[t+1]·Aᵀ`. -/
theorem C7_backward_recurrence (p : KParams n m) (st : KState n m)
    (s τa : ℕ) (F : Mat n n) (st' : KState n m)
    (hst : st' = backward p st s τa F) (hts : τa ≤ s) (t : ℕ)
    (hlo : s - τa ≤ t) (hhi : t < s) :
    st'.x_smooth t = st'.x_filt t +
      (smootherGain p (st'.V_filt t) (st'.V_pred (t + 1)) F).mulVec
        (st'.x_smooth (t + 1) - st'.x_pred (t + 1)) ∧
    st'.V_smooth t = st'.V_filt t +
      smootherGain p (st'.V_filt t) (st'.V_pred (t + 1)) F *
        (st'.V_smooth (t + 1) - st'.V_pred (t + 1)) *
        (smootherGain p (st'.V_filt t) (st'.V_pred (t + 1)) F).transpose ∧
    st'.V_pair (t + 1) = st'.V_smooth (t + 1) *
      (smootherGain p (st'.V_filt t) (st'.V_pred (t + 1)) F).transpose := by
  subst hst
  obtain ⟨k, hj⟩ : ∃ k, s - t = k + 1 := ⟨s - t - 1, by omega⟩
  have htk : t = s - (k + 1) := by omega
  have htk1 : t + 1 = s - k := by omega
  have hk1τ : k + 1 ≤ τa := by omega
  set st0 : KState n m :=
    { st with
      x_smooth := wr st.x_smooth s (st.x_filt s)
      V_smooth := wr st.V_smooth s (st.V_filt s) } with hst0
  have hbw : backward p st s τa F = backwardLoop p F st0 s τa := rfl
  have hBstep : backwardLoop p F st0 s (k + 1) =
      backwardStep p F (backwardLoop p F st0 s k) (s - (k + 1)) := rfl
  -- the invariant fields of the loop state
  have hfiltB : ∀ j, (backwardLoop p F st0 s j).x_filt = st.x_filt := by
    intro j
    rw [backwardLoop_x_filt]
  have hVfiltB : ∀ j, (backwardLoop p F st0 s j).V_filt = st.V_filt := by
    intro j
    rw [backwardLoop_V_filt]
  have hpredB : ∀ j, (backwardLoop p F st0 s j).x_pred = st.x_pred := by
    intro j
    rw [backwardLoop_x_pred]
  have hVpredB : ∀ j, (backwardLoop p F st0 s j).V_pred = st.V_pred := by
    intro j
    rw [backwardLoop_V_pred]
  -- final smoothed values at t+1 agree with the ones step k+1 reads
  have hsm1 : (backwardLoop p F st0 s τa).x_smooth (t + 1) =
      (backwardLoop p F st0 s k).x_smooth (t + 1) := by
    refine backwardLoop_x_smooth_mono p F st0 s k τa (t + 1) (by omega) hts ?_
    omega
  have hVsm1 : (backwardLoop p F st0 s τa).V_smooth (t + 1) =
      (backwardLoop p F st0 s k).V_smooth (t + 1) := by
    refine backwardLoop_V_smooth_mono p F st0 s k τa (t + 1) (by omega) hts ?_
    omega
  -- final values at t agree with the ones step k+1 writes
  have hsmt : (backwardLoop p F st0 s τa).x_smooth t =
      (backwardLoop p F st0 s (k + 1)).x_smooth t := by
    refine backwardLoop_x_smooth_mono p F st0 s (k + 1) τa t hk1τ hts ?_
    omega
  have hVsmt : (backwardLoop p F st0 s τa).V_smooth t =
      (backwardLoop p F st0 s (k + 1)).V_smooth t := by
    refine backwardLoop_V_smooth_mono p F st0 s (k + 1) τa t hk1τ hts ?_
    omega
  have hVpt : (backwardLoop p F st0 s τa).V_pair (t + 1) =
      (backwardLoop p F st0 s (k + 1)).V_pair (t + 1) := by
    refine backwardLoop_V_pair_mono p F st0 s (k + 1) τa (t + 1) hk1τ hts ?_
    omega
  have hwrite : s - (k + 1) = t := htk.symm
  refine ⟨?_, ?_, ?_⟩
  · rw [hbw, hsmt, hBstep, hwrite]
    simp only [backwardStep, wr, smootherGain, eq_self_iff_true, if_true]
    rw [hfiltB k, hVfiltB k, hpredB k, hVpredB k, ← hsm1]
    rw [hfiltB τa, hVfiltB τa, hpredB τa, hVpredB τa]
  · rw [hbw, hVsmt, hBstep, hwrite]
    simp only [backwardStep, wr, smootherGain, eq_self_iff_true, if_true]
    rw [hVfiltB k, hVpredB k, ← hVsm1]
    rw [hVfiltB τa, hVpredB τa]
  · rw [hbw, hVpt, hBstep, hwrite]
    simp only [backwardStep, wr, smootherGain, eq_self_iff_true, if_true]
    rw [hVfiltB k, hVpredB k, ← hVsm1]
    rw [hVfiltB τa, hVpredB τa]

/-- Parameters for C7's concrete instance (only the pseudo-inverse and the
state dimensionality matter to `_backward`). -/
def pC7 : KParams 1 1 := mkP .smooth 2 (fun _ => 1) true true 1 1

/-- The all-ones `1 × 1` transition candidate used in C7's instance. -/
def MOne : Mat 1 1 := Matrix.of fun _ _ => 1

theorem C7_witness :
    ((1 : ℕ) ≤ 1 ∧ 1 - 1 ≤ 0 ∧ 0 < 1) ∧
    ((backward pC7 stAdv 1 1 MOne).x_smooth 0 =
      (backward pC7 stAdv 1 1 MOne).x_filt 0 +
        (smootherGain pC7 ((backward pC7 stAdv 1 1 MOne).V_filt 0)
            ((backward pC7 stAdv 1 1 MOne).V_pred 1) MOne).mulVec
          ((backward pC7 stAdv 1 1 MOne).x_smooth 1 -
            (backward pC7 stAdv 1 1 MOne).x_pred 1) ∧
    (backward pC7 stAdv 1 1 MOne).V_smooth 0 =
      (backward pC7 stAdv 1 1 MOne).V_filt 0 +
        smootherGain pC7 ((backward pC7 stAdv 1 1 MOne).V_filt 0)
            ((backward pC7 stAdv 1 1 MOne).V_pred 1) MOne *
          ((backward pC7 stAdv 1 1 MOne).V_smooth 1 -
            (backward pC7 stAdv 1 1 MOne).V_pred 1) *
          (smootherGain pC7 ((backward pC7 stAdv 1 1 MOne).V_filt 0)
            ((backward pC7 stAdv 1 1 MOne).V_pred 1) MOne).transpose ∧
    (backward pC7 stAdv 1 1 MOne).V_pair 1 =
      (backward pC7 stAdv 1 1 MOne).V_smooth 1 *
        (smootherGain pC7 ((backward pC7 stAdv 1 1 MOne).V_filt 0)
          ((backward pC7 stAdv 1 1 MOne).V_pred 1) MOne).transpose) :=
  ⟨⟨Nat.le_refl 1, by decide, by decide⟩,
    C7_backward_recurrence pC7 stAdv 1 1 MOne (backward pC7 stAdv 1 1 MOne)
      rfl (by decide) 0 (by decide) (by decide)⟩

end EMKF
